import Mathlib

/-!
Verification of `openhgnn/trainerflow/recommendation.py`.

The file embeds, as Lean definitions, the evaluation pipeline of the
`Recommendation` trainer flow (per-user top-K selection from a masked score
row, `recall_at_k`, `ndcg_at_k`, `compute_DCG`) and the loss computation
(`loss_calculation`, `regularization_loss`), and proves the stated
properties about them.

Scores are floating-point numbers in the source; they are modelled as
`WithBot ℚ`, where `⊥` stands for the `np.NINF` value written into masked
cells (`score_matrix[train_u, train_i] = np.NINF`), and real-valued
quantities involving `log2` are modelled over `ℝ`.
-/

/-- A matrix cell of the evaluation score matrix: a rational score, or `⊥`
for a cell masked to `np.NINF`. -/
abbrev Score := WithBot ℚ

/-- Reading `score_matrix[u, i]` inside one row: `row.getD i ⊥` (all source
accesses are in bounds, so the default is never exercised). -/
def scoreAt (row : List Score) (i : ℕ) : Score := row.getD i ⊥

/-- Model of `np.argsort(row)` (and of the ordered permutation underlying
`np.argpartition`): the indices `0..row.length-1` sorted so that the row
values read in this order are ascending. NumPy fixes no tie order; this
model uses a stable insertion sort, one valid instance of the contract. -/
def argsort (row : List Score) : List ℕ :=
  List.insertionSort (fun i j => scoreAt row i ≤ scoreAt row j) (List.range row.length)

/-- Model of `np.argpartition(row, -K)[-K:]` applied to one row (source line
156-157): the indices of the `K` largest row values.  `np.argpartition`
guarantees exactly that the last `K` slots hold indices of the `K` largest
values, in unspecified order; the suffix of the full ascending argsort is
one valid instance of that contract. -/
def topKInd (row : List Score) (K : ℕ) : List ℕ :=
  (argsort row).drop (row.length - K)

/-- Model of one row of the source's ranking step (lines 156-160):

    ind = np.argpartition(score_matrix, -K)[:, -K:]
    arr_ind = score_matrix[arange(U)[:, None], ind]
    arr_ind_argsort = np.argsort(arr_ind)[np.arange(U), ::-1]
    pred_list = ind[np.arange(U)[:, None], arr_ind_argsort]

For a 2-d array `A`, `A[np.arange(U), ::-1]` equals `A[:, ::-1]` (the
advanced index `np.arange(U)` on axis 0 broadcasts against the reversing
basic slice on axis 1), so per row the ascending argsort of the selected
scores is reversed and used to reorder the selected indices. -/
def predRow (row : List Score) (K : ℕ) : List ℕ :=
  let ind := topKInd row K
  let arr_ind := ind.map (scoreAt row)
  ((argsort arr_ind).reverse).map (fun j => ind.getD j 0)

/-- Model of the masking step `score_matrix[train_u, train_i] = np.NINF`
restricted to one user's row: `row` holds the user's raw scores and `pos`
the items interacting with the user in the training-positive graph; every
such cell becomes `⊥`. -/
def maskRow (row : List ℚ) (pos : Finset ℕ) : List Score :=
  (List.range row.length).map (fun i => if i ∈ pos then (⊥ : Score) else ((row.getD i 0 : ℚ) : Score))

theorem argsort_perm (row : List Score) : (argsort row).Perm (List.range row.length) :=
  List.perm_insertionSort _ _

theorem argsort_length (row : List Score) : (argsort row).length = row.length := by
  simpa using (argsort_perm row).length_eq

theorem argsort_sorted (row : List Score) :
    List.Sorted (fun i j => scoreAt row i ≤ scoreAt row j) (argsort row) := by
  haveI : IsTotal ℕ (fun i j => scoreAt row i ≤ scoreAt row j) := ⟨fun a b => le_total _ _⟩
  haveI : IsTrans ℕ (fun i j => scoreAt row i ≤ scoreAt row j) := ⟨fun a b c => le_trans⟩
  exact List.sorted_insertionSort _ _

theorem topKInd_length (row : List Score) (K : ℕ) (hK : K ≤ row.length) :
    (topKInd row K).length = K := by
  simp [topKInd, argsort_length, Nat.sub_sub_self hK]

theorem mem_topKInd_lt (row : List Score) (K : ℕ) {i : ℕ} (hi : i ∈ topKInd row K) :
    i < row.length := by
  have : i ∈ argsort row := List.mem_of_mem_drop hi
  have := (argsort_perm row).mem_iff.mp this
  simpa using this

theorem predRow_length (row : List Score) (K : ℕ) (hK : K ≤ row.length) :
    (predRow row K).length = K := by
  simp [predRow, argsort_length, List.length_map, List.length_reverse,
    topKInd_length row K hK]

theorem map_getD_range {α : Type} (l : List α) (d : α) :
    (List.range l.length).map (fun i => l.getD i d) = l := by
  apply List.ext_getElem
  · simp
  · intro i h1 h2
    simp only [List.getElem_map, List.getElem_range]
    exact List.getD_eq_getElem _ _ h2

/-- The reordering step `ind[arr_ind_argsort]` (line 160) permutes exactly
the selected indices `ind`. -/
theorem sortDesc_perm (row : List Score) (ind : List ℕ) :
    (((argsort (ind.map (scoreAt row))).reverse).map (fun j => ind.getD j 0)).Perm ind := by
  have h1 : ((argsort (ind.map (scoreAt row))).reverse).Perm (List.range ind.length) := by
    refine ((argsort (ind.map (scoreAt row))).reverse_perm).trans ?_
    have := argsort_perm (ind.map (scoreAt row))
    simpa using this
  have h2 := h1.map (fun j => ind.getD j 0)
  have h3 : (List.range ind.length).map (fun j => ind.getD j 0) = ind := map_getD_range ind 0
  have h4 : ((List.range ind.length).map (fun j => ind.getD j 0)).Perm ind := by
    rw [h3]
  exact h2.trans h4

/-- The reordering step `ind[arr_ind_argsort]` (lines 159-160) lists the
selected indices in non-increasing score order. -/
theorem sortDesc_sorted (row : List Score) (ind : List ℕ) (j : ℕ) (hj : j + 1 < ind.length) :
    scoreAt row ((((argsort (ind.map (scoreAt row))).reverse).map (fun p => ind.getD p 0)).getD (j+1) 0)
      ≤ scoreAt row ((((argsort (ind.map (scoreAt row))).reverse).map (fun p => ind.getD p 0)).getD j 0) := by
  classical
  have harr : (ind.map (scoreAt row)).length = ind.length := List.length_map _ _
  have hσlen : (argsort (ind.map (scoreAt row))).length = ind.length := by
    rw [argsort_length, harr]
  have hrevlen : ((argsort (ind.map (scoreAt row))).reverse).length = ind.length := by
    simpa using hσlen
  have hmaplen :
      ((((argsort (ind.map (scoreAt row))).reverse).map (fun p => ind.getD p 0))).length
        = ind.length := by
    simpa using hrevlen
  have hj' : j < ind.length := Nat.lt_of_succ_lt hj
  -- the reversed argsort is pairwise score-descending
  have hdesc : List.Pairwise
      (fun a b => scoreAt (ind.map (scoreAt row)) b ≤ scoreAt (ind.map (scoreAt row)) a)
      ((argsort (ind.map (scoreAt row))).reverse) := by
    rw [List.pairwise_reverse]
    exact argsort_sorted (ind.map (scoreAt row))
  -- membership bound for entries of the reversed argsort
  have hmem : ∀ p ∈ (argsort (ind.map (scoreAt row))).reverse, p < ind.length := by
    intro p hp
    have hp' : p ∈ argsort (ind.map (scoreAt row)) := List.mem_reverse.mp hp
    have := (argsort_perm (ind.map (scoreAt row))).mem_iff.mp hp'
    rw [harr] at this
    simpa using this
  have hrj : j < ((argsort (ind.map (scoreAt row))).reverse).length := by rw [hrevlen]; exact hj'
  have hrj1 : j + 1 < ((argsort (ind.map (scoreAt row))).reverse).length := by rw [hrevlen]; exact hj
  -- rewrite the two getD reads into getElem form
  have e1 : (((argsort (ind.map (scoreAt row))).reverse).map (fun p => ind.getD p 0)).getD j 0
      = ind.getD (((argsort (ind.map (scoreAt row))).reverse)[j]) 0 := by
    rw [List.getD_eq_getElem _ _ (by rw [hmaplen]; exact hj')]
    simp
  have e2 : (((argsort (ind.map (scoreAt row))).reverse).map (fun p => ind.getD p 0)).getD (j+1) 0
      = ind.getD (((argsort (ind.map (scoreAt row))).reverse)[j+1]) 0 := by
    rw [List.getD_eq_getElem _ _ (by rw [hmaplen]; exact hj)]
    simp
  rw [e1, e2]
  have hpj : ((argsort (ind.map (scoreAt row))).reverse)[j] < ind.length :=
    hmem _ (List.getElem_mem hrj)
  have hpj1 : ((argsort (ind.map (scoreAt row))).reverse)[j+1] < ind.length :=
    hmem _ (List.getElem_mem hrj1)
  -- score of the selected index equals the selected score
  have escore : ∀ (p : ℕ) (hp : p < ind.length),
      scoreAt row (ind.getD p 0) = scoreAt (ind.map (scoreAt row)) p := by
    intro p hp
    have hp2 : p < (ind.map (scoreAt row)).length := by rw [harr]; exact hp
    simp only [scoreAt]
    rw [List.getD_eq_getElem _ _ hp2, List.getElem_map, List.getD_eq_getElem _ _ hp]
    rfl
  rw [escore _ hpj1, escore _ hpj]
  have := List.pairwise_iff_getElem.mp hdesc j (j+1) hrj hrj1 (Nat.lt_succ_self j)
  exact this

/-- C1: for every user, the top-K list produced by the evaluator is ordered by
strictly non-increasing score: the final list is a permutation of the K
selected column indices (`ind`, the K largest masked-matrix values), and for
every position `j < K-1` the score of `pred_list[u][j]` is at least the score
of `pred_list[u][j+1]`. -/
theorem claim1_pred_list_sorted_descending (row : List Score) (K : ℕ) (hK : K ≤ row.length) :
    (predRow row K).Perm (topKInd row K) ∧
    ∀ j, j + 1 < K →
      scoreAt row ((predRow row K).getD (j+1) 0) ≤ scoreAt row ((predRow row K).getD j 0) := by
  have hpred : predRow row K
      = ((argsort ((topKInd row K).map (scoreAt row))).reverse).map
          (fun p => (topKInd row K).getD p 0) := rfl
  constructor
  · rw [hpred]
    exact sortDesc_perm row (topKInd row K)
  · intro j hj
    rw [hpred]
    exact sortDesc_sorted row (topKInd row K) j (by rw [topKInd_length row K hK]; exact hj)

theorem claim1_witness :
    (predRow [((2 : ℚ) : Score), ((5 : ℚ) : Score), ((1 : ℚ) : Score)] 2).Perm
      (topKInd [((2 : ℚ) : Score), ((5 : ℚ) : Score), ((1 : ℚ) : Score)] 2) ∧
    ∀ j, j + 1 < 2 →
      scoreAt [((2 : ℚ) : Score), ((5 : ℚ) : Score), ((1 : ℚ) : Score)]
          ((predRow [((2 : ℚ) : Score), ((5 : ℚ) : Score), ((1 : ℚ) : Score)] 2).getD (j+1) 0)
        ≤ scoreAt [((2 : ℚ) : Score), ((5 : ℚ) : Score), ((1 : ℚ) : Score)]
          ((predRow [((2 : ℚ) : Score), ((5 : ℚ) : Score), ((1 : ℚ) : Score)] 2).getD j 0) :=
  claim1_pred_list_sorted_descending _ 2 (by decide)

/-- C8: the ranked list returned by the evaluator has length exactly K for
every user (`0 < K ≤ I` as the source's `np.argpartition(·, -K)` call
requires), including when the user has fewer than K eligible items —
masking never removes columns, it only changes their values. -/
theorem claim8_topk_length (row : List Score) (K : ℕ) (hK0 : 0 < K) (hK : K ≤ row.length) :
    (predRow row K).length = K :=
  predRow_length row K hK

theorem claim8_witness :
    (predRow (maskRow [5, 3] {0, 1}) 2).length = 2 :=
  claim8_topk_length _ 2 (by decide) (by decide)

theorem maskRow_length (row : List ℚ) (pos : Finset ℕ) :
    (maskRow row pos).length = row.length := by
  simp [maskRow]

theorem scoreAt_maskRow (row : List ℚ) (pos : Finset ℕ) {i : ℕ} (hi : i < row.length) :
    scoreAt (maskRow row pos) i
      = if i ∈ pos then (⊥ : Score) else ((row.getD i 0 : ℚ) : Score) := by
  have hi' : i < (maskRow row pos).length := by rw [maskRow_length]; exact hi
  rw [scoreAt, List.getD_eq_getElem _ _ hi']
  simp [maskRow]

/-- In an ascending-sorted list of scores whose count of non-`⊥` values is at
least `K`, every element of the last `K` slots is above `⊥`. -/
theorem sorted_suffix_pos (s : List Score) (hs : List.Pairwise (· ≤ ·) s) (K : ℕ)
    (hKs : K ≤ s.length) (hc : K ≤ s.countP (fun x => decide (⊥ < x))) :
    ∀ x ∈ s.drop (s.length - K), ⊥ < x := by
  classical
  intro x hx
  by_contra hbot
  have hxbot : x = ⊥ := le_bot_iff.mp (not_lt.mp hbot)
  have hdl : (s.drop (s.length - K)).length = K := by
    rw [List.length_drop]; omega
  obtain ⟨i, hi, hget⟩ := List.mem_iff_getElem.mp hx
  have hiK : i < K := by rwa [hdl] at hi
  have hq : s.length - K + i < s.length := by omega
  rw [List.getElem_drop s] at hget
  have hzero : ∀ r (hr : r < s.length), r ≤ s.length - K + i → s[r] = ⊥ := by
    intro r hr hrq
    rcases Nat.lt_or_ge r (s.length - K + i) with h | h
    · have hle := List.pairwise_iff_getElem.mp hs r (s.length - K + i) hr hq h
      rw [hget, hxbot] at hle
      exact le_bot_iff.mp hle
    · have heq : r = s.length - K + i := le_antisymm hrq h
      subst heq
      rw [hget]
      exact hxbot
  have hcount : s.countP (fun x => decide (⊥ < x))
      = (s.take (s.length - K + i + 1)).countP (fun x => decide (⊥ < x))
        + (s.drop (s.length - K + i + 1)).countP (fun x => decide (⊥ < x)) := by
    conv_lhs => rw [← List.take_append_drop (s.length - K + i + 1) s]
    exact List.countP_append _ _ _
  have htake0 : (s.take (s.length - K + i + 1)).countP (fun x => decide (⊥ < x)) = 0 := by
    rw [List.countP_eq_zero]
    intro y hy
    obtain ⟨r, hr, hyr⟩ := List.mem_iff_getElem.mp hy
    have hr' : r < s.length := by
      have := hr
      rw [List.length_take] at this
      omega
    have hrq : r ≤ s.length - K + i := by
      have := hr
      rw [List.length_take] at this
      omega
    rw [List.getElem_take] at hyr
    rw [← hyr, hzero r hr' hrq]
    simp
  have hdrople : (s.drop (s.length - K + i + 1)).countP (fun x => decide (⊥ < x))
      ≤ s.length - (s.length - K + i + 1) := by
    calc (s.drop (s.length - K + i + 1)).countP (fun x => decide (⊥ < x))
        ≤ (s.drop (s.length - K + i + 1)).length := List.countP_le_length _
      _ = s.length - (s.length - K + i + 1) := List.length_drop _ _
  omega

/-- If the user has at least `K` items not masked to `⊥`, every index the
partial selection keeps has a non-`⊥` score. -/
theorem topKInd_not_masked (row : List ℚ) (pos : Finset ℕ) (K : ℕ)
    (hK : K ≤ row.length)
    (helig : K ≤ ((List.range row.length).filter (fun i => decide (i ∉ pos))).length) :
    ∀ i ∈ topKInd (maskRow row pos) K, ⊥ < scoreAt (maskRow row pos) i := by
  classical
  intro i hi
  have hm : (maskRow row pos).length = row.length := maskRow_length row pos
  -- the selected scores form the last K slots of the sorted score list
  have hsorted : List.Pairwise (fun a b => a ≤ b)
      ((argsort (maskRow row pos)).map (scoreAt (maskRow row pos))) :=
    List.Pairwise.map _ (fun a b h => h) (argsort_sorted (maskRow row pos))
  have hslen : ((argsort (maskRow row pos)).map (scoreAt (maskRow row pos))).length
      = row.length := by
    rw [List.length_map, argsort_length, hm]
  -- count of non-masked scores among the sorted scores
  have hcnt : ((argsort (maskRow row pos)).map (scoreAt (maskRow row pos))).countP
      (fun x => decide (⊥ < x))
      = ((List.range row.length).filter (fun i => decide (i ∉ pos))).length := by
    have hperm : ((argsort (maskRow row pos)).map (scoreAt (maskRow row pos))).Perm
        ((List.range row.length).map (scoreAt (maskRow row pos))) := by
      refine List.Perm.map _ ?_
      have := argsort_perm (maskRow row pos)
      rwa [hm] at this
    rw [hperm.countP_eq, List.countP_map, List.countP_eq_length_filter]
    congr 1
    apply List.filter_congr
    intro x hx
    have hxlt : x < row.length := by simpa using hx
    simp only [Function.comp]
    rw [scoreAt_maskRow row pos hxlt]
    by_cases hxp : x ∈ pos
    · simp [hxp]
    · simp [hxp, WithBot.bot_lt_coe]
  have hcnt' : K ≤ ((argsort (maskRow row pos)).map (scoreAt (maskRow row pos))).countP
      (fun x => decide (⊥ < x)) := by rw [hcnt]; exact helig
  have happ := sorted_suffix_pos _ hsorted K (by rw [hslen]; exact hK) hcnt'
  have hmem : scoreAt (maskRow row pos) i
      ∈ ((argsort (maskRow row pos)).map (scoreAt (maskRow row pos))).drop
          (((argsort (maskRow row pos)).map (scoreAt (maskRow row pos))).length - K) := by
    rw [hslen, ← hm]
    have : (topKInd (maskRow row pos) K).map (scoreAt (maskRow row pos))
        = ((argsort (maskRow row pos)).map (scoreAt (maskRow row pos))).drop
            ((maskRow row pos).length - K) := by
      rw [topKInd, List.map_drop]
    rw [← this]
    exact List.mem_map_of_mem _ hi
  exact happ _ hmem

theorem mem_predRow_mem_topKInd (row : List Score) (K : ℕ) {i : ℕ}
    (hi : i ∈ predRow row K) : i ∈ topKInd row K :=
  (sortDesc_perm row (topKInd row K)).mem_iff.mp hi

/-- C3 counterexample: with I = 2 items, K = 2 (so `0 < K ≤ I`) and the single
training positive (u, 0), item 0 is masked to `⊥` yet still appears in the
user's top-K list, because the user has fewer than K eligible items and
`ind[:, -K:]` always keeps K columns.  This refutes the claim for general
`0 < K ≤ I`. -/
theorem claim3_counterexample :
    0 < 2 ∧ 2 ≤ ([5, 3] : List ℚ).length ∧
    0 ∈ predRow (maskRow [5, 3] {0}) 2 ∧ 0 ∈ ({0} : Finset ℕ) := by
  decide

/-- C3 amended: whenever the user has at least K eligible items (at most
`I - K` of the user's cells are training positives), no item of the user's
top-K list is a training positive: the `np.NINF` mask keeps all masked cells
below every eligible cell, and at least K eligible cells exist to fill all
K selected slots. -/
theorem claim3_amended_no_train_positive (row : List ℚ) (pos : Finset ℕ) (K : ℕ)
    (hK : K ≤ row.length)
    (helig : K ≤ ((List.range row.length).filter (fun i => decide (i ∉ pos))).length) :
    ∀ i ∈ predRow (maskRow row pos) K, i ∉ pos := by
  intro i hi hipos
  have himem : i ∈ topKInd (maskRow row pos) K := mem_predRow_mem_topKInd _ K hi
  have hlt : i < row.length := by
    have := mem_topKInd_lt _ K himem
    rwa [maskRow_length] at this
  have hposit := topKInd_not_masked row pos K hK helig i himem
  rw [scoreAt_maskRow row pos hlt, if_pos hipos] at hposit
  exact lt_irrefl _ hposit

theorem claim3_witness : (1 : ℕ) ∉ ({0} : Finset ℕ) :=
  claim3_amended_no_train_positive [5, 3, 4] {0} 2 (by decide) (by decide) 1 (by decide)

/-- The accumulator loop of `recall_at_k` (lines 221-228): starting from
`sum = 0.0, test_users = 0`, each user with a non-empty held-out set adds
`len(test_items_set & pred_items_set) / len(test_items_set)` to the sum and
one to the counter; other users change nothing.  `test` maps each user id
to the held-out item set `set(test_graph.successors(user))`, `pred_list`
to the user's ranked list. -/
def recallFold (pred_list : List (List ℕ)) (test : List (Finset ℕ)) (k : ℕ) : ℚ × ℕ :=
  (List.range test.length).foldl
    (fun acc user =>
      if (test.getD user ∅).card ≠ 0 then
        (acc.1 + ((test.getD user ∅ ∩ ((pred_list.getD user []).take k).toFinset).card : ℚ)
            / ((test.getD user ∅).card : ℚ),
         acc.2 + 1)
      else acc)
    ((0 : ℚ), (0 : ℕ))

/-- Model of `recall_at_k` (lines 220-229).  The final statement
`return sum / test_users` raises `ZeroDivisionError` in Python when
`test_users == 0`; that outcome is modelled as `none`. -/
def recall_at_k (pred_list : List (List ℕ)) (test : List (Finset ℕ)) (k : ℕ) : Option ℚ :=
  if (recallFold pred_list test k).2 = 0 then none
  else some ((recallFold pred_list test k).1 / ((recallFold pred_list test k).2 : ℚ))

/-- The specification's reading of Recall@K: the arithmetic mean of
`|topK(u) ∩ heldout(u)| / |heldout(u)|` over exactly the users with a
non-empty held-out set. -/
def recall_spec (pred_list : List (List ℕ)) (test : List (Finset ℕ)) (k : ℕ) : ℚ :=
  (((List.range test.length).filter (fun u => decide ((test.getD u ∅).card ≠ 0))).map
      (fun u => ((test.getD u ∅ ∩ ((pred_list.getD u []).take k).toFinset).card : ℚ)
          / ((test.getD u ∅).card : ℚ))).sum
    / (((List.range test.length).filter (fun u => decide ((test.getD u ∅).card ≠ 0))).length : ℚ)

theorem recall_foldl_eq (pred_list : List (List ℕ)) (test : List (Finset ℕ)) (k : ℕ)
    (us : List ℕ) (s : ℚ) (c : ℕ) :
    us.foldl
      (fun acc user =>
        if (test.getD user ∅).card ≠ 0 then
          (acc.1 + ((test.getD user ∅ ∩ ((pred_list.getD user []).take k).toFinset).card : ℚ)
              / ((test.getD user ∅).card : ℚ),
           acc.2 + 1)
        else acc)
      (s, c)
    = (s + ((us.filter (fun u => decide ((test.getD u ∅).card ≠ 0))).map
          (fun u => ((test.getD u ∅ ∩ ((pred_list.getD u []).take k).toFinset).card : ℚ)
              / ((test.getD u ∅).card : ℚ))).sum,
       c + (us.filter (fun u => decide ((test.getD u ∅).card ≠ 0))).length) := by
  induction us generalizing s c with
  | nil => simp
  | cons u rest ih =>
    by_cases h : (test.getD u ∅).card ≠ 0
    · rw [List.foldl_cons, if_pos h, ih]
      rw [List.filter_cons, if_pos (by simpa using h)]
      simp only [List.map_cons, List.sum_cons, List.length_cons, Prod.mk.injEq]
      constructor
      · ring
      · omega
    · rw [List.foldl_cons, if_neg h, ih]
      rw [List.filter_cons, if_neg (by simpa using h)]

/-- C6: `recall_at_k` returns the arithmetic mean of per-user recall over
exactly the users with a non-empty held-out set, provided at least one such
user exists (otherwise the source raises); empty-held-out users contribute
to neither the sum nor the divisor. -/
theorem claim6_recall_mean (pred_list : List (List ℕ)) (test : List (Finset ℕ)) (k : ℕ)
    (h : ∃ u ∈ List.range test.length, (test.getD u ∅).card ≠ 0) :
    recall_at_k pred_list test k = some (recall_spec pred_list test k) := by
  have hr : recallFold pred_list test k
      = ((((List.range test.length).filter (fun u => decide ((test.getD u ∅).card ≠ 0))).map
            (fun u => ((test.getD u ∅ ∩ ((pred_list.getD u []).take k).toFinset).card : ℚ)
                / ((test.getD u ∅).card : ℚ))).sum,
         ((List.range test.length).filter (fun u => decide ((test.getD u ∅).card ≠ 0))).length) := by
    rw [recallFold, recall_foldl_eq]
    simp
  have hne : ((List.range test.length).filter
      (fun u => decide ((test.getD u ∅).card ≠ 0))).length ≠ 0 := by
    obtain ⟨u, hu, hcard⟩ := h
    have hmem : u ∈ (List.range test.length).filter
        (fun u => decide ((test.getD u ∅).card ≠ 0)) := by
      rw [List.mem_filter]
      exact ⟨hu, by simpa using hcard⟩
    intro hlen0
    rw [List.length_eq_zero] at hlen0
    rw [hlen0] at hmem
    exact List.not_mem_nil _ hmem
  rw [recall_at_k, hr]
  rw [if_neg hne]
  rfl

theorem claim6_witness :
    recall_at_k [[1, 2]] [{1}] 2 = some (recall_spec [[1, 2]] [{1}] 2) :=
  claim6_recall_mean [[1, 2]] [{1}] 2 (by decide)

/-- Outcome of a Python metric function: a returned float value, a returned
IEEE NaN (as produced by `np.mean([])`), or a raised exception. -/
inductive PyFloat where
  | val (x : ℝ)
  | nan
  | raised

/-- The summand chain of `compute_DCG` (lines 248-253):
`np.sum(np.subtract(np.power(2, l), 1) / np.log2(np.arange(2, l.size + 2)))`,
written as a recursion whose counter `c` is the 0-based position of the head
inside the original list, so the head's discount is `log2(c + 2)`. -/
noncomputable def compute_DCG_from : List ℕ → ℕ → ℝ
  | [], _ => 0
  | r :: rest, c => ((2 : ℝ) ^ r - 1) / Real.logb 2 ((c : ℝ) + 2) + compute_DCG_from rest (c + 1)

/-- Model of `compute_DCG` (lines 248-253); the empty list yields `0.0`
(the source's explicit `else` branch, and the empty sum here). -/
noncomputable def compute_DCG (l : List ℕ) : ℝ := compute_DCG_from l 0

/-- The relevance vector of `ndcg_at_k` (line 236):
`[1 if i in pred_items_set else 0 for i in test_items_set]` — indexed by the
held-out items (in their set-iteration order), not by rank position. -/
def hit_list (test_items : List ℕ) (pred_items : List ℕ) : List ℕ :=
  test_items.map (fun i => if i ∈ pred_items then 1 else 0)

/-- The ideal relevance vector of `ndcg_at_k` (lines 237-241): `[1]*k` when
`GT >= k`, else `[1]*GT + [0]*(k-GT)`. -/
def ideal_hit_list (GT k : ℕ) : List ℕ :=
  if GT ≥ k then List.replicate k 1 else List.replicate GT 1 ++ List.replicate (k - GT) 0

/-- One user's appended value in `ndcg_at_k` (line 245):
`compute_DCG(hit_list) / idcg`.  `test_items` is the user's held-out set in
its Python-set iteration order; `pred` the user's ranked list. -/
noncomputable def ndcg_user (test_items : List ℕ) (pred : List ℕ) (k : ℕ) : ℝ :=
  compute_DCG (hit_list test_items (pred.take k))
    / compute_DCG (ideal_hit_list test_items.length k)

open Classical in
/-- Model of `ndcg_at_k` (lines 231-246): users whose `idcg` is falsy
(`if idcg:`) are skipped; `np.mean` of the collected list is returned, and
`np.mean([])` is NaN (with a RuntimeWarning), not an exception. -/
noncomputable def ndcg_at_k (pred_list : List (List ℕ)) (test : List (List ℕ)) (k : ℕ) :
    PyFloat :=
  if h : ((List.range test.length).filterMap (fun user =>
        if compute_DCG (ideal_hit_list (test.getD user []).length k) = 0 then none
        else some (ndcg_user (test.getD user []) (pred_list.getD user []) k))).length = 0
  then PyFloat.nan
  else PyFloat.val
    (((List.range test.length).filterMap (fun user =>
        if compute_DCG (ideal_hit_list (test.getD user []).length k) = 0 then none
        else some (ndcg_user (test.getD user []) (pred_list.getD user []) k))).sum
      / (((List.range test.length).filterMap (fun user =>
        if compute_DCG (ideal_hit_list (test.getD user []).length k) = 0 then none
        else some (ndcg_user (test.getD user []) (pred_list.getD user []) k))).length : ℝ))

theorem compute_DCG_from_nonneg (l : List ℕ) (c : ℕ) : 0 ≤ compute_DCG_from l c := by
  induction l generalizing c with
  | nil => simp [compute_DCG_from]
  | cons r rest ih =>
    have h1 : (1 : ℝ) ≤ 2 ^ r := by
      have := pow_le_pow_right₀ (by norm_num : (1:ℝ) ≤ 2) (Nat.zero_le r)
      simpa using this
    have h2 : (0 : ℝ) < Real.logb 2 ((c : ℝ) + 2) := by
      apply Real.logb_pos (by norm_num)
      have : (0 : ℝ) ≤ (c : ℝ) := Nat.cast_nonneg c
      linarith
    have hterm : 0 ≤ ((2 : ℝ) ^ r - 1) / Real.logb 2 ((c : ℝ) + 2) :=
      div_nonneg (by linarith) (le_of_lt h2)
    have := ih (c + 1)
    simp only [compute_DCG_from]
    linarith

theorem compute_DCG_from_pos (l : List ℕ) (c : ℕ) (h : ∃ r ∈ l, r = 1) :
    0 < compute_DCG_from l c := by
  induction l generalizing c with
  | nil =>
    obtain ⟨r, hr, _⟩ := h
    exact absurd hr (List.not_mem_nil r)
  | cons a rest ih =>
    have h2 : (0 : ℝ) < Real.logb 2 ((c : ℝ) + 2) := by
      apply Real.logb_pos (by norm_num)
      have : (0 : ℝ) ≤ (c : ℝ) := Nat.cast_nonneg c
      linarith
    obtain ⟨r, hr, hr1⟩ := h
    rcases List.mem_cons.mp hr with h1 | hmem
    · have ha : a = 1 := by rw [← h1, hr1]
      subst ha
      have hterm : (0 : ℝ) < ((2 : ℝ) ^ (1 : ℕ) - 1) / Real.logb 2 ((c : ℝ) + 2) := by
        apply div_pos (by norm_num) h2
      have := compute_DCG_from_nonneg rest (c + 1)
      simp only [compute_DCG_from]
      linarith
    · have h1 : (1 : ℝ) ≤ 2 ^ a := by
        have := pow_le_pow_right₀ (by norm_num : (1:ℝ) ≤ 2) (Nat.zero_le a)
        simpa using this
      have hterm : 0 ≤ ((2 : ℝ) ^ a - 1) / Real.logb 2 ((c : ℝ) + 2) :=
        div_nonneg (by linarith) (le_of_lt h2)
      have := ih (c + 1) ⟨r, hmem, hr1⟩
      simp only [compute_DCG_from]
      linarith

theorem compute_DCG_from_replicate_zero (m c : ℕ) :
    compute_DCG_from (List.replicate m 0) c = 0 := by
  induction m generalizing c with
  | zero => simp [compute_DCG_from]
  | succ m ih =>
    rw [List.replicate_succ]
    simp only [compute_DCG_from]
    rw [ih (c + 1)]
    norm_num

theorem compute_DCG_from_append_zeros (l : List ℕ) (m c : ℕ) :
    compute_DCG_from (l ++ List.replicate m 0) c = compute_DCG_from l c := by
  induction l generalizing c with
  | nil => simp [compute_DCG_from, compute_DCG_from_replicate_zero]
  | cons r rest ih =>
    simp only [List.cons_append, List.append_eq, compute_DCG_from]
    rw [ih (c + 1)]

theorem compute_DCG_from_eq_sum (l : List ℕ) (c : ℕ) :
    compute_DCG_from l c
      = ∑ i in Finset.range l.length,
          ((2 : ℝ) ^ (l.getD i 0) - 1) / Real.logb 2 ((i : ℝ) + (c : ℝ) + 2) := by
  induction l generalizing c with
  | nil => simp [compute_DCG_from]
  | cons r rest ih =>
    simp only [compute_DCG_from, List.length_cons]
    rw [Finset.sum_range_succ', ih (c + 1)]
    have hmain : ∀ i ∈ Finset.range rest.length,
        ((2 : ℝ) ^ (rest.getD i 0) - 1) / Real.logb 2 ((i : ℝ) + ((c : ℕ) + 1 : ℕ) + 2)
          = ((2 : ℝ) ^ ((r :: rest).getD (i + 1) 0) - 1)
              / Real.logb 2 (((i + 1 : ℕ) : ℝ) + (c : ℝ) + 2) := by
      intro i _
      rw [List.getD_cons_succ]
      have : ((i : ℝ) + ((c : ℕ) + 1 : ℕ) + 2) = (((i + 1 : ℕ) : ℝ) + (c : ℝ) + 2) := by
        push_cast
        ring
      rw [this]
    rw [Finset.sum_congr rfl hmain]
    have hzero : ((2 : ℝ) ^ ((r :: rest).getD 0 0) - 1)
        / Real.logb 2 (((0 : ℕ) : ℝ) + (c : ℝ) + 2)
        = ((2 : ℝ) ^ r - 1) / Real.logb 2 ((c : ℝ) + 2) := by
      rw [List.getD_cons_zero]
      norm_num
    rw [hzero]
    ring

/-- C5: `compute_DCG` implements exactly the binary-gain discounted sum
`Σ_{i=1..n} (2^{r_i} - 1) / log2(i + 1)` (`i` 1-based, so position `i`
0-based gets discount `log2(i + 2)`); in particular `compute_DCG [1,1,0]`
equals `1/log2 2 + 1/log2 3 + 0/log2 4` and `compute_DCG []` equals `0`. -/
theorem claim5_compute_DCG :
    (∀ l : List ℕ, compute_DCG l
        = ∑ i in Finset.range l.length,
            ((2 : ℝ) ^ (l.getD i 0) - 1) / Real.logb 2 ((i : ℝ) + 2))
    ∧ compute_DCG [1, 1, 0] = 1 / Real.logb 2 2 + 1 / Real.logb 2 3 + 0 / Real.logb 2 4
    ∧ compute_DCG ([] : List ℕ) = 0 := by
  refine ⟨fun l => ?_, ?_, ?_⟩
  · rw [compute_DCG, compute_DCG_from_eq_sum]
    apply Finset.sum_congr rfl
    intro i _
    norm_num
  · simp only [compute_DCG, compute_DCG_from]
    norm_num
  · simp [compute_DCG, compute_DCG_from]

theorem hit_list_all_ones (test_items predk : List ℕ) (h : ∀ i ∈ test_items, i ∈ predk) :
    hit_list test_items predk = List.replicate test_items.length 1 := by
  induction test_items with
  | nil => simp [hit_list]
  | cons a rest ih =>
    have ha : a ∈ predk := h a (List.mem_cons_self a rest)
    rw [hit_list, List.map_cons, if_pos ha, List.length_cons, List.replicate_succ]
    congr 1
    exact ih (fun i hi => h i (List.mem_cons_of_mem a hi))

theorem ideal_DCG_of_le (GT k : ℕ) (h : GT ≤ k) :
    compute_DCG (ideal_hit_list GT k) = compute_DCG (List.replicate GT 1) := by
  unfold ideal_hit_list
  by_cases hge : GT ≥ k
  · have heq : GT = k := le_antisymm h hge
    rw [if_pos hge, heq]
  · rw [if_neg hge]
    exact compute_DCG_from_append_zeros _ _ 0

/-- C2 counterexample: one held-out item (item 1), K = 2, top-K list
`[7, 1]` placing the held-out item in reverse-optimal (last) position; the
source's NDCG is exactly 1, not strictly less than 1, because its relevance
vector is indexed by held-out items, not by rank. -/
theorem claim2_counterexample :
    ndcg_user [1] [7, 1] 2 = 1 ∧ ¬ ndcg_user [1] [7, 1] 2 < 1 := by
  have h : ndcg_user [1] [7, 1] 2 = 1 := by
    have hlogb : Real.logb 2 2 = 1 := Real.logb_self_eq_one (by norm_num)
    simp only [ndcg_user, hit_list, ideal_hit_list, compute_DCG, compute_DCG_from]
    norm_num [hlogb]
  exact ⟨h, by rw [h]; exact lt_irrefl 1⟩

/-- C2 amended: NDCG@K of a user whose held-out items all appear in the
top-K list equals 1.0 regardless of where in the list they sit (in
particular both for a perfectly ranked and for a reverse-optimally ranked
list — the metric is rank-insensitive); and NDCG@K is strictly positive
whenever at least one held-out item appears in the list. -/
theorem claim2_amended_ndcg (test_items pred : List ℕ) (k : ℕ) :
    (0 < test_items.length → test_items.length ≤ k →
        (∀ i ∈ test_items, i ∈ pred.take k) → ndcg_user test_items pred k = 1)
    ∧ (0 < k → (∃ i ∈ test_items, i ∈ pred.take k) → 0 < ndcg_user test_items pred k) := by
  constructor
  · intro hGT hGTk hall
    unfold ndcg_user
    rw [hit_list_all_ones _ _ hall, ideal_DCG_of_le _ _ hGTk]
    apply div_self
    have hpos : 0 < compute_DCG (List.replicate test_items.length 1) := by
      apply compute_DCG_from_pos
      exact ⟨1, List.mem_replicate.mpr ⟨Nat.pos_iff_ne_zero.mp hGT, rfl⟩, rfl⟩
    exact ne_of_gt hpos
  · rintro hk ⟨i, hi, hip⟩
    unfold ndcg_user
    apply div_pos
    · apply compute_DCG_from_pos
      refine ⟨1, ?_, rfl⟩
      unfold hit_list
      exact List.mem_map.mpr ⟨i, hi, by rw [if_pos hip]⟩
    · apply compute_DCG_from_pos
      have hGT : test_items.length ≠ 0 := by
        intro h0
        rw [List.length_eq_zero] at h0
        rw [h0] at hi
        exact List.not_mem_nil i hi
      unfold ideal_hit_list
      by_cases hge : test_items.length ≥ k
      · rw [if_pos hge]
        exact ⟨1, List.mem_replicate.mpr ⟨Nat.pos_iff_ne_zero.mp hk, rfl⟩, rfl⟩
      · rw [if_neg hge]
        exact ⟨1, List.mem_append_left _ (List.mem_replicate.mpr ⟨hGT, rfl⟩), rfl⟩

theorem claim2_witness :
    ndcg_user [1] [1, 2] 2 = 1 ∧ 0 < ndcg_user [1] [1, 2] 2 :=
  ⟨(claim2_amended_ndcg [1] [1, 2] 2).1 (by decide) (by decide) (by decide),
   (claim2_amended_ndcg [1] [1, 2] 2).2 (by decide) ⟨1, by decide, by decide⟩⟩

/-- C9: the per-user NDCG value is invariant under any permutation of the
first k entries of the user's prediction list: the relevance vector is
built by iterating the held-out set and testing membership in
`pred_list[user][:k]`, so only membership matters, not rank. -/
theorem claim9_ndcg_perm_invariant (test_items pred pred2 : List ℕ) (k : ℕ)
    (h : (pred.take k).Perm (pred2.take k)) :
    ndcg_user test_items pred k = ndcg_user test_items pred2 k := by
  unfold ndcg_user
  congr 1
  unfold hit_list
  refine congrArg compute_DCG ?_
  apply List.map_congr_left
  intro i _
  by_cases hi : i ∈ pred.take k
  · rw [if_pos hi, if_pos (h.mem_iff.mp hi)]
  · rw [if_neg hi, if_neg (fun hc => hi (h.mem_iff.mpr hc))]

theorem claim9_witness :
    ndcg_user [2] [1, 2] 2 = ndcg_user [2] [2, 1] 2 :=
  claim9_ndcg_perm_invariant [2] [1, 2] [2, 1] 2 (by decide)

theorem ideal_DCG_zero_of_empty (k : ℕ) :
    compute_DCG (ideal_hit_list 0 k) = 0 := by
  rcases Nat.eq_zero_or_pos k with hk0 | hkpos
  · subst hk0
    simp [ideal_hit_list, compute_DCG, compute_DCG_from]
  · rw [ideal_hit_list, if_neg (by omega)]
    simp only [List.replicate_zero, List.nil_append]
    rw [compute_DCG]
    exact compute_DCG_from_replicate_zero k 0

/-- C4: on a split where every user's held-out set is empty, `recall_at_k`
does raise (`ZeroDivisionError` from `sum / test_users`, modelled `none`),
but `ndcg_at_k` does not fail fast: it returns `np.mean([])`, an
uncontrolled NaN (third conjunct: no input makes `ndcg_at_k` raise). -/
theorem claim4_empty_heldout_behaviour :
    recall_at_k [[0]] [∅] 20 = none
    ∧ ndcg_at_k [[0]] [[]] 20 = PyFloat.nan
    ∧ ∀ pred_list test k, ndcg_at_k pred_list test k ≠ PyFloat.raised := by
  refine ⟨by decide, ?_, ?_⟩
  · have hideal : compute_DCG (ideal_hit_list (([] : List ℕ)).length 20) = 0 := by
      simpa using ideal_DCG_zero_of_empty 20
    rw [ndcg_at_k, dif_pos]
    simp only [show ([([] : List ℕ)]).length = 1 from rfl,
      show List.range 1 = [0] from rfl, List.filterMap_cons, List.filterMap_nil]
    rw [if_pos (by simpa using hideal)]
    rfl
  · intro pred_list test k hcontra
    unfold ndcg_at_k at hcontra
    split at hcontra
    · exact PyFloat.noConfusion hcontra
    · exact PyFloat.noConfusion hcontra

/-- Model of `torch.sigmoid`. -/
noncomputable def sigmoid (x : ℝ) : ℝ := 1 / (1 + Real.exp (-x))

/-- Model of `tensor.mean()`: the sum of the entries divided by their
count. -/
noncomputable def tensorMean (l : List ℝ) : ℝ := l.sum / (l.length : ℝ)

/-- Model of `p_score.repeat_interleave(self.num_neg)` (line 104): each
entry repeated `m` times in place. -/
def repeat_interleave (xs : List ℝ) (m : ℕ) : List ℝ :=
  xs.flatMap (fun x => List.replicate m x)

/-- The BPR term of `loss_calculation` (line 106):
`-torch.log(torch.sigmoid(p_score - n_score)).mean()` with
`p_score = ScorePredictor(positive_graph, ·).repeat_interleave(num_neg)`
and `n_score = ScorePredictor(negative_graph, ·)`; `p` and `n` are those
two score vectors before the repeat. -/
noncomputable def bpr_loss (p n : List ℝ) (m : ℕ) : ℝ :=
  -(tensorMean (List.zipWith (fun a b => Real.log (sigmoid (a - b))) (repeat_interleave p m) n))

/-- Model of `regularization_loss` (lines 119-123): starting from zero, add
`th.mean(e.pow(2))` for every embedding matrix `e` (each matrix flattened
to the list of its entries). -/
noncomputable def regularization_loss (emb : List (List ℝ)) : ℝ :=
  (emb.map (fun e => tensorMean (e.map (fun x => x ^ 2)))).sum

/-- Model of `self.reg_weight = 0` (line 28); no other statement of the
class assigns `reg_weight`. -/
def reg_weight : ℝ := 0

/-- Model of `loss_calculation` (lines 103-108):
`bpr_loss + reg_weight * reg_loss`, parameterised by the positive and
negative score vectors, the negative-per-positive count `m = num_neg`, the
embedding matrices and the configured weight `w`. -/
noncomputable def loss_calculation (p n : List ℝ) (m : ℕ) (emb : List (List ℝ)) (w : ℝ) : ℝ :=
  bpr_loss p n m + w * regularization_loss emb

theorem repeat_interleave_length (xs : List ℝ) (m : ℕ) :
    (repeat_interleave xs m).length = m * xs.length := by
  induction xs with
  | nil => simp [repeat_interleave]
  | cons a rest ih =>
    simp only [repeat_interleave, List.flatMap_cons, List.length_append,
      List.length_replicate] at ih ⊢
    rw [ih, List.length_cons]
    ring

theorem repeat_interleave_getD (xs : List ℝ) (m i : ℕ) (hm : 0 < m)
    (hi : i < m * xs.length) :
    (repeat_interleave xs m).getD i 0 = xs.getD (i / m) 0 := by
  induction xs generalizing i with
  | nil => simp at hi
  | cons a rest ih =>
    have hcons : repeat_interleave (a :: rest) m
        = List.replicate m a ++ repeat_interleave rest m := by
      simp [repeat_interleave]
    rw [hcons]
    by_cases him : i < m
    · rw [List.getD_append _ _ _ i (by simpa using him)]
      rw [Nat.div_eq_of_lt him, List.getD_cons_zero]
      rw [List.getD_eq_getElem _ _ (by simpa using him), List.getElem_replicate]
    · push_neg at him
      rw [List.getD_append_right _ _ _ i (by simpa using him)]
      simp only [List.length_replicate]
      have hi' : i - m < m * rest.length := by
        have hmul : m * (rest.length + 1) = m * rest.length + m := by ring
        rw [List.length_cons, hmul] at hi
        omega
      rw [ih (i - m) hi']
      rw [Nat.div_eq_sub_div hm him, List.getD_cons_succ]

theorem zipWith_sum_getD (f : ℝ → ℝ → ℝ) (as bs : List ℝ) (h : bs.length = as.length) :
    (List.zipWith f as bs).sum = ∑ i in Finset.range as.length, f (as.getD i 0) (bs.getD i 0) := by
  induction as generalizing bs with
  | nil => simp
  | cons a rest ih =>
    cases bs with
    | nil => simp at h
    | cons b bs2 =>
      simp only [List.zipWith_cons_cons, List.sum_cons, List.length_cons]
      rw [Finset.sum_range_succ']
      have hlen : bs2.length = rest.length := by simpa using h
      rw [ih bs2 hlen]
      simp only [List.getD_cons_succ, List.getD_cons_zero]
      ring

/-- C7: `loss_calculation` returns `mean(-log(sigmoid(p - n))) + w * reg`,
where the i-th pair aligns `p[i / num_neg]` (each positive score repeated
`num_neg` times) with `n[i]`, and `reg` is the sum over node types of the
mean of the squared entries of that type's embedding matrix. -/
theorem claim7_loss_formula (p n : List ℝ) (m : ℕ) (emb : List (List ℝ)) (w : ℝ)
    (hm : 0 < m) (hlen : n.length = m * p.length) :
    loss_calculation p n m emb w
      = (∑ i in Finset.range (m * p.length),
            -Real.log (sigmoid (p.getD (i / m) 0 - n.getD i 0)))
          / ((m * p.length : ℕ) : ℝ)
        + w * (emb.map (fun e => (e.map (fun x => x ^ 2)).sum / (e.length : ℝ))).sum := by
  have hril : (repeat_interleave p m).length = m * p.length := repeat_interleave_length p m
  have hzl : (List.zipWith (fun a b => Real.log (sigmoid (a - b)))
      (repeat_interleave p m) n).length = m * p.length := by
    rw [List.length_zipWith, hril, hlen]
    exact min_self _
  have hsum : (List.zipWith (fun a b => Real.log (sigmoid (a - b)))
        (repeat_interleave p m) n).sum
      = ∑ i in Finset.range (m * p.length),
          Real.log (sigmoid (p.getD (i / m) 0 - n.getD i 0)) := by
    rw [zipWith_sum_getD _ _ _ (by rw [hlen, hril]), hril]
    apply Finset.sum_congr rfl
    intro i hi
    rw [repeat_interleave_getD p m i hm (Finset.mem_range.mp hi)]
  unfold loss_calculation bpr_loss regularization_loss tensorMean
  rw [hsum, hzl]
  rw [Finset.sum_neg_distrib, neg_div]
  simp only [List.length_map]

theorem claim7_witness :
    loss_calculation [1] [2, 3] 2 [[1]] 5
      = (∑ i in Finset.range (2 * ([(1 : ℝ)]).length),
            -Real.log (sigmoid (([(1 : ℝ)]).getD (i / 2) 0 - ([(2 : ℝ), 3]).getD i 0)))
          / ((2 * ([(1 : ℝ)]).length : ℕ) : ℝ)
        + 5 * (([[(1 : ℝ)]]).map (fun e => (e.map (fun x => x ^ 2)).sum / (e.length : ℝ))).sum :=
  claim7_loss_formula [1] [2, 3] 2 [[1]] 5 (by norm_num) (by simp)

/-- C10: the trainer fixes `self.reg_weight = 0` at construction and never
reassigns it, so `loss_calculation` always returns the pure BPR term; the
regularization term contributes nothing. -/
theorem claim10_reg_weight_zero (p n : List ℝ) (m : ℕ) (emb : List (List ℝ)) :
    loss_calculation p n m emb reg_weight = bpr_loss p n m := by
  simp [loss_calculation, reg_weight]
